import Mathlib

/-!
Verification of the replacement-policy engine of the set-associative cache
simulator (file replacement_policies.c): the LRU, LRU-Prefer-Clean and
Random replacement policies, their Recency Order Table maintenance, the
eviction-candidate selection, and the instance lifecycle.

The C code is embedded shallowly: machine integers become Nat, C arrays
become Lean lists or total index functions, the stateful access-recording
functions become functions returning the new metadata, and the scanning
loops of the C code become structurally recursive functions that follow the
loops step by step.
-/

namespace ReplacementPolicies

/-- Modelled from the spec: the coherence status enumeration of a cache line
(declared in the headers, which are not part of the given sources). It has
at least INVALID (no valid data) and EXCLUSIVE (valid, clean); every other
non-INVALID status counts as dirty, represented here by MODIFIED. -/
inductive Status where
  | INVALID
  | EXCLUSIVE
  | MODIFIED
deriving DecidableEq

/-- Modelled from the spec: struct cache_line as read by the policy engine —
a tag and a coherence status (the engine reads nothing else). -/
structure CacheLine where
  tag : Nat
  status : Status
deriving DecidableEq

/-- Modelled from the spec: the view of struct cache_system the policy
engine reads — the associativity and the flat cache_lines array, indexed by
set_idx * associativity + local line index. The array is modelled as a
total function on indices. -/
structure CacheSystem where
  associativity : Nat
  cache_lines : Nat → CacheLine

/-- struct lru_metadata: the number of sets, the associativity, and the
per-set Recency Order Table order[set_idx][i] with the MRU local index at
position 0 and the LRU local index at position associativity - 1. -/
structure LruMetadata where
  num_sets : Nat
  associativity : Nat
  order : List (List Nat)
deriving DecidableEq

/-- struct rand_metadata: the RAND policy stores only the geometry. -/
structure RandMetadata where
  num_sets : Nat
  associativity : Nat
deriving DecidableEq

/-- Scan loop of lru_cache_access step 1: for i in [i0, i0 + k), return the
first i such that set_lines[i].tag == tag and set_lines[i].status != INVALID,
where set_lines[i] is cache_lines[set_start + i]; none if the loop ends. -/
def find_tag_from (cl : Nat → CacheLine) (set_start tag i0 : Nat) : Nat → Option Nat
  | 0 => none
  | k + 1 =>
    if (cl (set_start + i0)).tag = tag ∧ (cl (set_start + i0)).status ≠ Status.INVALID then
      some i0
    else
      find_tag_from cl set_start tag (i0 + 1) k

/-- Scan loop of lru_cache_access step 2: for i in [i0, i0 + k), return the
first i with row[i] == a (row is the set's order table); none otherwise. -/
def find_pos_from (row : List Nat) (a i0 : Nat) : Nat → Option Nat
  | 0 => none
  | k + 1 =>
    if row.getD i0 0 = a then some i0 else find_pos_from row a (i0 + 1) k

/-- Shift loop of lru_cache_access step 3: for i = p down to 1, the C code
does order[i] = order[i-1], moving the entries at positions 0..p-1 one slot
toward the tail. -/
def shift_toward_tail (row : List Nat) : Nat → List Nat
  | 0 => row
  | p + 1 => shift_toward_tail (row.set (p + 1) (row.getD p 0)) p

/-- lru_eviction_index: returns order[set_idx][associativity - 1], the LRU
line of the set. The body performs no store, so in this state-passing
embedding the metadata comes back unchanged as the second component. -/
def lru_eviction_index (md : LruMetadata) (cs : CacheSystem) (set_idx : Nat) :
    Nat × LruMetadata :=
  ((md.order.getD set_idx []).getD (md.associativity - 1) 0, md)

/-- lru_cache_access: find the local index of the line whose tag matches and
whose status is not INVALID (no-op if absent), find its position p in the
set's order table (no-op if absent), shift positions 0..p-1 one slot toward
the tail and put the accessed index at position 0. -/
def lru_cache_access (md : LruMetadata) (cs : CacheSystem) (set_idx tag : Nat) :
    LruMetadata :=
  match find_tag_from cs.cache_lines (set_idx * cs.associativity) tag 0 cs.associativity with
  | none => md
  | some accessed_line_idx =>
    match find_pos_from (md.order.getD set_idx []) accessed_line_idx 0 md.associativity with
    | none => md
    | some p =>
      { md with
        order := md.order.set set_idx
          ((shift_toward_tail (md.order.getD set_idx []) p).set 0 accessed_line_idx) }

/-- lru_replacement_policy_new: every set's order table is initialised to
the identity order [0, 1, ..., associativity - 1]. -/
def lru_replacement_policy_new (sets associativity : Nat) : LruMetadata :=
  { num_sets := sets
    associativity := associativity
    order := (List.range sets).map (fun _ => List.range associativity) }

/-- Scan loop of lru_prefer_clean_eviction_index: for i = k - 1 down to 0,
return the first order-table entry order[set_idx][i] whose cache line (at
global index set_idx * assoc + order[set_idx][i]) has status EXCLUSIVE;
none if the loop reaches the head without finding a clean line. -/
def find_clean_down (row : List Nat) (cl : Nat → CacheLine) (set_idx assoc : Nat) :
    Nat → Option Nat
  | 0 => none
  | i + 1 =>
    if (cl (set_idx * assoc + row.getD i 0)).status = Status.EXCLUSIVE then
      some (row.getD i 0)
    else
      find_clean_down row cl set_idx assoc i

/-- lru_prefer_clean_eviction_index: scan the order table from the LRU tail
toward the MRU head and return the first clean (EXCLUSIVE) line; if none is
found, fall back to the tail entry (plain LRU). Read-only, so the metadata
comes back unchanged. -/
def lru_prefer_clean_eviction_index (md : LruMetadata) (cs : CacheSystem)
    (set_idx : Nat) : Nat × LruMetadata :=
  match find_clean_down (md.order.getD set_idx []) cs.cache_lines set_idx
      md.associativity md.associativity with
  | some line_idx_in_set => (line_idx_in_set, md)
  | none => ((md.order.getD set_idx []).getD (md.associativity - 1) 0, md)

/-- lru_prefer_clean_cache_access: the body is identical to
lru_cache_access. -/
def lru_prefer_clean_cache_access (md : LruMetadata) (cs : CacheSystem)
    (set_idx tag : Nat) : LruMetadata :=
  match find_tag_from cs.cache_lines (set_idx * cs.associativity) tag 0 cs.associativity with
  | none => md
  | some accessed_line_idx =>
    match find_pos_from (md.order.getD set_idx []) accessed_line_idx 0 md.associativity with
    | none => md
    | some p =>
      { md with
        order := md.order.set set_idx
          ((shift_toward_tail (md.order.getD set_idx []) p).set 0 accessed_line_idx) }

/-- lru_prefer_clean_replacement_policy_new: identical construction to the
plain LRU policy; only the eviction function pointer differs. -/
def lru_prefer_clean_replacement_policy_new (sets associativity : Nat) : LruMetadata :=
  { num_sets := sets
    associativity := associativity
    order := (List.range sets).map (fun _ => List.range associativity) }

/-- A replacement_policy instance of a recency policy, reduced to the state
the cleanup functions observe: the data pointer, none once released. -/
structure LruPolicy where
  data : Option LruMetadata
deriving DecidableEq

/-- A replacement_policy instance of the RAND policy: its data pointer. -/
structure RandPolicy where
  data : Option RandMetadata
deriving DecidableEq

/-- lru_replacement_policy_cleanup over a possibly-null instance pointer.
The C body reads replacement_policy->data before any check of the instance
pointer itself, so a null instance is undefined behaviour, modelled as the
outer none; a null data pointer returns immediately; otherwise the metadata
is freed and the data pointer is cleared. A result some rp means the call
returned normally leaving the instance in state rp. -/
def lru_replacement_policy_cleanup : Option LruPolicy → Option (Option LruPolicy)
  | none => none
  | some rp =>
    match rp.data with
    | none => some (some rp)
    | some _ => some (some { data := none })

/-- lru_prefer_clean_replacement_policy_cleanup: body identical to the LRU
cleanup (no null check of the instance pointer either). -/
def lru_prefer_clean_replacement_policy_cleanup :
    Option LruPolicy → Option (Option LruPolicy)
  | none => none
  | some rp =>
    match rp.data with
    | none => some (some rp)
    | some _ => some (some { data := none })

/-- rand_replacement_policy_cleanup: this variant first checks
!replacement_policy || !replacement_policy->data, so it returns normally on
a null instance and on a null data pointer; otherwise it frees the metadata
and clears the pointer. -/
def rand_replacement_policy_cleanup : Option RandPolicy → Option (Option RandPolicy)
  | none => some none
  | some rp =>
    match rp.data with
    | none => some (some rp)
    | some _ => some (some { data := none })

/-- Modelled from the spec: the process-wide uniform 32-bit word source
behind libsodium randombytes_random (the library is vendored, its code is
not among the given sources) — an infinite stream of words together with a
cursor; each draw uses the word at the cursor reduced mod 2^32. -/
structure Rng where
  words : Nat → Nat
  pos : Nat

/-- Modelled from the spec: the rejection loop inside libsodium
randombytes_uniform — draw 32-bit words, skipping every word below min,
and return the first accepted word together with the advanced stream. The
loop gets explicit fuel; none models the (probability-zero) case that the
fuel runs out before a word is accepted. -/
def rejection_loop (min : Nat) (g : Rng) : Nat → Option (Nat × Rng)
  | 0 => none
  | fuel + 1 =>
    if g.words g.pos % 2 ^ 32 < min then
      rejection_loop min { g with pos := g.pos + 1 } fuel
    else
      some (g.words g.pos % 2 ^ 32, { g with pos := g.pos + 1 })

/-- Modelled from the spec: libsodium randombytes_uniform(upper_bound), the
unbiased uniform-integer generator used by rand_eviction_index. For
upper_bound < 2 it returns 0 without drawing; otherwise it rejects words
below min = (2^32 - upper_bound) % upper_bound (which equals
2^32 % upper_bound) and returns the first accepted word mod upper_bound. -/
def randombytes_uniform (upper_bound : Nat) (g : Rng) (fuel : Nat) :
    Option (Nat × Rng) :=
  if upper_bound < 2 then some (0, g)
  else
    match rejection_loop ((2 ^ 32 - upper_bound) % upper_bound) g fuel with
    | none => none
    | some (r, g2) => some (r % upper_bound, g2)

/-- rand_eviction_index: returns randombytes_uniform(associativity); the set
index and the cache contents are not consulted and the metadata comes back
unchanged. -/
def rand_eviction_index (md : RandMetadata) (cs : CacheSystem) (set_idx : Nat)
    (g : Rng) (fuel : Nat) : Option (Nat × RandMetadata × Rng) :=
  match randombytes_uniform md.associativity g fuel with
  | none => none
  | some (r, g2) => some (r, md, g2)

/-- rand_cache_access: the RAND policy does nothing on access. -/
def rand_cache_access (md : RandMetadata) (cs : CacheSystem) (set_idx tag : Nat) :
    RandMetadata :=
  md

/-- Well-formedness of the LRU metadata: one order row per set, and each
set's order table is a permutation of the local indices [0, associativity).
This is the permutation invariant of the Recency Order Table. -/
def WF (md : LruMetadata) : Prop :=
  md.order.length = md.num_sets ∧
  ∀ s, s < md.num_sets → ((md.order.getD s []).Perm (List.range md.associativity))

instance (md : LruMetadata) : Decidable (WF md) := by
  unfold WF
  infer_instance

/-- Concrete cache view for the test scenarios: one set of four valid
lines, line n holding tag 10 + n, all clean. -/
def scenario_cache : CacheSystem :=
  { associativity := 4
    cache_lines := fun n => { tag := 10 + n, status := Status.EXCLUSIVE } }

/-- Concrete cache view for Scenario B: local lines 0 and 2 dirty, local
lines 1 and 3 clean. -/
def scenario_b_cache : CacheSystem :=
  { associativity := 4
    cache_lines := fun n =>
      { tag := 10 + n
        status := if n % 2 = 1 then Status.EXCLUSIVE else Status.MODIFIED } }

/-- Concrete metadata with order table [3, 2, 1, 0] (MRU to LRU), as in
Scenarios B and C. -/
def scenario_b_md : LruMetadata :=
  { num_sets := 1, associativity := 4, order := [[3, 2, 1, 0]] }

/-- Scenario A: starting from the identity order of a fresh 4-way set,
record accesses that resolve to local indices 0, 1, 2, 3 in sequence. -/
def scenario_a_md : LruMetadata :=
  lru_cache_access (lru_cache_access (lru_cache_access (lru_cache_access
    (lru_replacement_policy_new 1 4) scenario_cache 0 10)
    scenario_cache 0 11) scenario_cache 0 12) scenario_cache 0 13

/-- A concrete word stream for exercising the random draw. -/
def witness_rng : Rng := { words := fun _ => 5, pos := 0 }

/-! Helper lemmas about the shift loop of record-access. -/

theorem shift_toward_tail_length (p : Nat) (row : List Nat) :
    (shift_toward_tail row p).length = row.length := by
  induction p generalizing row with
  | zero => rfl
  | succ q ih => simp [shift_toward_tail, ih]

theorem getD_eq_getElem_of_lt {α : Type} {row : List α} {n : Nat} (h : n < row.length)
    (d : α) : row.getD n d = row[n] := by
  simp [List.getD_eq_getElem?_getD, List.getElem?_eq_getElem h]

theorem getD_set_self {α : Type} {l : List α} {i : Nat} (h : i < l.length) (r d : α) :
    (l.set i r).getD i d = r := by
  simp [List.getD_eq_getElem?_getD, List.getElem?_set_self h]

theorem getD_set_ne {α : Type} {l : List α} {i j : Nat} (h : i ≠ j) (r d : α) :
    (l.set i r).getD j d = l.getD j d := by
  simp [List.getD_eq_getElem?_getD, List.getElem?_set_ne h]

theorem shift_toward_tail_eq (p : Nat) (row : List Nat) (hp : p < row.length) :
    shift_toward_tail row p = row.take 1 ++ row.take p ++ row.drop (p + 1) := by
  induction p generalizing row with
  | zero =>
    simpa [shift_toward_tail] using (List.take_append_drop 1 row).symm
  | succ q ih =>
    have hq : q < row.length := Nat.lt_of_succ_lt hp
    have hlen : (row.set (q + 1) (row.getD q 0)).length = row.length := by simp
    have ih2 := ih (row.set (q + 1) (row.getD q 0)) (by omega)
    have htake1 : (row.set (q + 1) (row.getD q 0)).take 1 = row.take 1 := by
      rw [List.set_take]
      exact List.set_eq_of_length_le (by simp)
    have htakeq : (row.set (q + 1) (row.getD q 0)).take q = row.take q := by
      rw [List.set_take]
      exact List.set_eq_of_length_le (by simp)
    have hdrop : (row.set (q + 1) (row.getD q 0)).drop (q + 1) =
        row.getD q 0 :: row.drop (q + 2) := by
      rw [List.drop_set, if_neg (show ¬(q + 1 < q + 1) by omega), Nat.sub_self,
        List.drop_eq_getElem_cons hp, List.set_cons_zero]
    have htail : row.take (q + 1) = row.take q ++ [row[q]] := by
      rw [List.take_succ, List.getElem?_eq_getElem hq]
      rfl
    have hstep : shift_toward_tail row (q + 1) =
        shift_toward_tail (row.set (q + 1) (row.getD q 0)) q := rfl
    rw [hstep, ih2, htake1, htakeq, hdrop, htail, getD_eq_getElem_of_lt hq]
    simp only [List.append_assoc, List.singleton_append, List.cons_append, List.nil_append]

theorem moved_row_eq (p : Nat) (row : List Nat) (a : Nat) (hp : p < row.length) :
    (shift_toward_tail row p).set 0 a = a :: (row.take p ++ row.drop (p + 1)) := by
  rw [shift_toward_tail_eq p row hp]
  obtain ⟨x, t, rfl⟩ := List.exists_cons_of_ne_nil
    (List.ne_nil_of_length_pos (Nat.lt_of_le_of_lt (Nat.zero_le p) hp))
  simp

theorem moved_row_perm (p : Nat) (row : List Nat) (a : Nat) (hp : p < row.length)
    (ha : row.getD p 0 = a) :
    (a :: (row.take p ++ row.drop (p + 1))).Perm row := by
  conv_rhs => rw [← List.take_append_drop p row]
  rw [List.drop_eq_getElem_cons hp, ← ha, getD_eq_getElem_of_lt hp]
  exact (List.perm_middle).symm

/-! Helper lemmas about the scan loops. -/

theorem find_pos_from_some (row : List Nat) (a : Nat) :
    ∀ (k i0 p : Nat), find_pos_from row a i0 k = some p →
      i0 ≤ p ∧ p < i0 + k ∧ row.getD p 0 = a := by
  intro k
  induction k with
  | zero => intro i0 p h; simp [find_pos_from] at h
  | succ q ih =>
    intro i0 p h
    rw [find_pos_from] at h
    by_cases hc : row.getD i0 0 = a
    · rw [if_pos hc] at h
      obtain rfl : i0 = p := Option.some.inj h
      exact ⟨Nat.le_refl _, by omega, hc⟩
    · rw [if_neg hc] at h
      obtain ⟨h1, h2, h3⟩ := ih (i0 + 1) p h
      exact ⟨by omega, by omega, h3⟩

theorem find_tag_from_none (cl : Nat → CacheLine) (set_start tag : Nat) :
    ∀ (k i0 : Nat),
      (∀ j, i0 ≤ j → j < i0 + k →
        ¬((cl (set_start + j)).tag = tag ∧ (cl (set_start + j)).status ≠ Status.INVALID)) →
      find_tag_from cl set_start tag i0 k = none := by
  intro k
  induction k with
  | zero => intro i0 _; rfl
  | succ q ih =>
    intro i0 hno
    rw [find_tag_from, if_neg (hno i0 (Nat.le_refl _) (by omega))]
    exact ih (i0 + 1) (fun j h1 h2 => hno j (by omega) (by omega))

theorem find_clean_down_some (row : List Nat) (cl : Nat → CacheLine)
    (set_idx assoc : Nat) :
    ∀ (k idx : Nat), find_clean_down row cl set_idx assoc k = some idx →
      ∃ i, i < k ∧ row.getD i 0 = idx ∧
        (cl (set_idx * assoc + idx)).status = Status.EXCLUSIVE ∧
        ∀ j, i < j → j < k →
          (cl (set_idx * assoc + row.getD j 0)).status ≠ Status.EXCLUSIVE := by
  intro k
  induction k with
  | zero => intro idx h; simp [find_clean_down] at h
  | succ q ih =>
    intro idx h
    rw [find_clean_down] at h
    by_cases hc : (cl (set_idx * assoc + row.getD q 0)).status = Status.EXCLUSIVE
    · rw [if_pos hc] at h
      obtain rfl : row.getD q 0 = idx := Option.some.inj h
      exact ⟨q, Nat.lt_succ_self q, rfl, hc, fun j h1 h2 => by omega⟩
    · rw [if_neg hc] at h
      obtain ⟨i, h1, h2, h3, h4⟩ := ih idx h
      refine ⟨i, by omega, h2, h3, fun j hj1 hj2 => ?_⟩
      by_cases hjq : j = q
      · subst hjq; exact hc
      · exact h4 j hj1 (by omega)

theorem find_clean_down_none (row : List Nat) (cl : Nat → CacheLine)
    (set_idx assoc : Nat) :
    ∀ (k : Nat), find_clean_down row cl set_idx assoc k = none →
      ∀ i, i < k →
        (cl (set_idx * assoc + row.getD i 0)).status ≠ Status.EXCLUSIVE := by
  intro k
  induction k with
  | zero => intro _ i hi; omega
  | succ q ih =>
    intro h i hi
    rw [find_clean_down] at h
    by_cases hc : (cl (set_idx * assoc + row.getD q 0)).status = Status.EXCLUSIVE
    · rw [if_pos hc] at h; exact absurd h (by simp)
    · rw [if_neg hc] at h
      by_cases hiq : i = q
      · subst hiq; exact hc
      · exact ih h i (by omega)

/-! Case analysis of record-access: either it is a no-op, or both scans
succeeded and the order table of the touched set is the move-to-front
rewrite of its old value. -/

theorem prefer_clean_cache_access_eq (md : LruMetadata) (cs : CacheSystem)
    (set_idx tag : Nat) :
    lru_prefer_clean_cache_access md cs set_idx tag = lru_cache_access md cs set_idx tag :=
  rfl

theorem lru_cache_access_cases (md : LruMetadata) (cs : CacheSystem) (set_idx tag : Nat) :
    lru_cache_access md cs set_idx tag = md ∨
    ∃ i p,
      find_tag_from cs.cache_lines (set_idx * cs.associativity) tag 0 cs.associativity = some i
      ∧ find_pos_from (md.order.getD set_idx []) i 0 md.associativity = some p
      ∧ lru_cache_access md cs set_idx tag =
          { md with
            order := md.order.set set_idx
              ((shift_toward_tail (md.order.getD set_idx []) p).set 0 i) } := by
  cases hf : find_tag_from cs.cache_lines (set_idx * cs.associativity) tag 0
      cs.associativity with
  | none =>
    left
    simp only [lru_cache_access, hf]
  | some i =>
    cases hp : find_pos_from (md.order.getD set_idx []) i 0 md.associativity with
    | none =>
      left
      simp only [lru_cache_access, hf, hp]
    | some p =>
      right
      refine ⟨i, p, ?_, ?_, ?_⟩
      · exact hf ▸ rfl
      · exact hp
      · simp only [lru_cache_access, hf, hp]

theorem lru_cache_access_found (md : LruMetadata) (cs : CacheSystem) (set_idx tag i p : Nat)
    (hfind : find_tag_from cs.cache_lines (set_idx * cs.associativity) tag 0
      cs.associativity = some i)
    (hpos : find_pos_from (md.order.getD set_idx []) i 0 md.associativity = some p) :
    lru_cache_access md cs set_idx tag =
      { md with
        order := md.order.set set_idx
          ((shift_toward_tail (md.order.getD set_idx []) p).set 0 i) } := by
  simp only [lru_cache_access, hfind, hpos]

/-- C7: record_access of the LRU-Prefer-Clean policy is identical in
behavior to record_access of the plain LRU policy: for every cache view, set
index, tag and starting metadata state both produce the same resulting
metadata, hence the same order tables. -/
theorem lru_prefer_clean_record_access_refines_lru :
    ∀ (md : LruMetadata) (cs : CacheSystem) (set_idx tag : Nat),
      lru_prefer_clean_cache_access md cs set_idx tag = lru_cache_access md cs set_idx tag :=
  fun _ _ _ _ => rfl

/-- C10: record_access of LRU and LRU-Prefer-Clean modifies at most the
order table of the given set: the order table of every other set, and the
stored num_sets and associativity, are unchanged by the call. -/
theorem record_access_frame (md : LruMetadata) (cs : CacheSystem)
    (set_idx tag s : Nat) (hs : s ≠ set_idx) :
    (lru_cache_access md cs set_idx tag).order.getD s [] = md.order.getD s []
    ∧ (lru_cache_access md cs set_idx tag).num_sets = md.num_sets
    ∧ (lru_cache_access md cs set_idx tag).associativity = md.associativity
    ∧ (lru_prefer_clean_cache_access md cs set_idx tag).order.getD s []
        = md.order.getD s []
    ∧ (lru_prefer_clean_cache_access md cs set_idx tag).num_sets = md.num_sets
    ∧ (lru_prefer_clean_cache_access md cs set_idx tag).associativity = md.associativity := by
  rw [prefer_clean_cache_access_eq]
  rcases lru_cache_access_cases md cs set_idx tag with heq | ⟨i, p, _, _, heq⟩
  · rw [heq]
    exact ⟨rfl, rfl, rfl, rfl, rfl, rfl⟩
  · rw [heq]
    refine ⟨?_, rfl, rfl, ?_, rfl, rfl⟩ <;>
      exact getD_set_ne (fun h => hs h.symm) _ _

/-- C10 witness at a concrete input: accessing set 0 leaves the order table
of set 1 untouched. -/
theorem record_access_frame_witness :
    (1 : Nat) ≠ 0
    ∧ (lru_cache_access (lru_replacement_policy_new 2 2)
        { associativity := 2, cache_lines := fun n => { tag := n, status := Status.EXCLUSIVE } }
        0 0).order.getD 1 []
      = (lru_replacement_policy_new 2 2).order.getD 1 [] :=
  ⟨by decide,
    (record_access_frame (lru_replacement_policy_new 2 2)
      { associativity := 2, cache_lines := fun n => { tag := n, status := Status.EXCLUSIVE } }
      0 0 1 (by decide)).1⟩

/-- C6: when no line of the addressed set carries the given tag with a
non-INVALID status, record_access is a silent no-op for both LRU and
LRU-Prefer-Clean: the whole metadata is returned unchanged. -/
theorem record_access_unmatched_no_op (md : LruMetadata) (cs : CacheSystem)
    (set_idx tag : Nat)
    (h : ∀ j, j < cs.associativity →
      ¬((cs.cache_lines (set_idx * cs.associativity + j)).tag = tag ∧
        (cs.cache_lines (set_idx * cs.associativity + j)).status ≠ Status.INVALID)) :
    lru_cache_access md cs set_idx tag = md ∧
    lru_prefer_clean_cache_access md cs set_idx tag = md := by
  have hf : find_tag_from cs.cache_lines (set_idx * cs.associativity) tag 0
      cs.associativity = none :=
    find_tag_from_none _ _ _ _ 0 (fun j _ h2 => h j (by omega))
  constructor
  · unfold lru_cache_access
    rw [hf]
  · rw [prefer_clean_cache_access_eq]
    unfold lru_cache_access
    rw [hf]

/-- C6 witness: an all-INVALID set makes record_access return the metadata
unchanged. -/
theorem record_access_unmatched_no_op_witness :
    (∀ j, j < (2 : Nat) →
      ¬((({ associativity := 2,
            cache_lines := fun n => { tag := n, status := Status.INVALID } } :
              CacheSystem).cache_lines (0 * 2 + j)).tag = 0 ∧
        (({ associativity := 2,
            cache_lines := fun n => { tag := n, status := Status.INVALID } } :
              CacheSystem).cache_lines (0 * 2 + j)).status ≠ Status.INVALID))
    ∧ lru_cache_access (lru_replacement_policy_new 1 2)
        { associativity := 2, cache_lines := fun n => { tag := n, status := Status.INVALID } }
        0 0
      = lru_replacement_policy_new 1 2 :=
  ⟨by decide,
    (record_access_unmatched_no_op (lru_replacement_policy_new 1 2)
      { associativity := 2, cache_lines := fun n => { tag := n, status := Status.INVALID } }
      0 0 (by decide)).1⟩

theorem new_order_row (sets assoc s : Nat) (hs : s < sets) :
    (lru_replacement_policy_new sets assoc).order.getD s [] = List.range assoc := by
  have hlt : s < ((List.range sets).map
      (fun _ => List.range assoc)).length := by simpa using hs
  rw [show (lru_replacement_policy_new sets assoc).order =
      (List.range sets).map (fun _ => List.range assoc) from rfl,
    getD_eq_getElem_of_lt hlt]
  simp

theorem wf_new (sets assoc : Nat) : WF (lru_replacement_policy_new sets assoc) := by
  constructor
  · simp [lru_replacement_policy_new]
  · intro s hs
    rw [show (lru_replacement_policy_new sets assoc).num_sets = sets from rfl] at hs
    rw [new_order_row sets assoc s hs]
    exact List.Perm.refl _

theorem wf_preserved (md : LruMetadata) (cs : CacheSystem) (set_idx tag : Nat)
    (hwf : WF md) : WF (lru_cache_access md cs set_idx tag) := by
  rcases lru_cache_access_cases md cs set_idx tag with heq | ⟨i, p, hf, hp, heq⟩
  · rw [heq]
    exact hwf
  · rw [heq]
    obtain ⟨hlen, hrows⟩ := hwf
    refine ⟨by simpa using hlen, ?_⟩
    intro s hsn
    by_cases hss : s = set_idx
    · subst hss
      have hslen : s < md.order.length := by rw [hlen]; exact hsn
      rw [show ({ md with
          order := md.order.set s
            ((shift_toward_tail (md.order.getD s []) p).set 0 i) } :
          LruMetadata).order = md.order.set s
            ((shift_toward_tail (md.order.getD s []) p).set 0 i) from rfl,
        getD_set_self hslen]
      obtain ⟨_, hp2, hgot⟩ := find_pos_from_some _ _ _ _ _ hp
      have hperm := hrows s hsn
      have hrl : (md.order.getD s []).length = md.associativity := by
        simpa using hperm.length_eq
      have hplt : p < (md.order.getD s []).length := by omega
      rw [moved_row_eq p _ i hplt]
      exact (moved_row_perm p _ i hplt hgot).trans hperm
    · rw [show ({ md with
          order := md.order.set set_idx
            ((shift_toward_tail (md.order.getD set_idx []) p).set 0 i) } :
          LruMetadata).order = md.order.set set_idx
            ((shift_toward_tail (md.order.getD set_idx []) p).set 0 i) from rfl,
        getD_set_ne (fun h => hss h.symm)]
      exact hrows s hsn

/-- C2: for both policies that own a Recency Order Table, each set's order
table is a permutation of [0, associativity): immediately after construction
it is the identity permutation [0, 1, ..., associativity - 1], and
well-formedness (one row per set, each row a permutation of the local
indices) is preserved by every record_access call. -/
theorem order_table_permutation_invariant :
    (∀ sets assoc, WF (lru_replacement_policy_new sets assoc)
      ∧ WF (lru_prefer_clean_replacement_policy_new sets assoc))
    ∧ (∀ sets assoc s, s < sets →
        (lru_replacement_policy_new sets assoc).order.getD s [] = List.range assoc
        ∧ (lru_prefer_clean_replacement_policy_new sets assoc).order.getD s []
            = List.range assoc)
    ∧ (∀ md cs set_idx tag, WF md → WF (lru_cache_access md cs set_idx tag))
    ∧ (∀ md cs set_idx tag, WF md → WF (lru_prefer_clean_cache_access md cs set_idx tag)) := by
  refine ⟨fun sets assoc => ⟨wf_new sets assoc, wf_new sets assoc⟩,
    fun sets assoc s hs => ⟨new_order_row sets assoc s hs, new_order_row sets assoc s hs⟩,
    fun md cs set_idx tag hwf => wf_preserved md cs set_idx tag hwf,
    fun md cs set_idx tag hwf => ?_⟩
  rw [prefer_clean_cache_access_eq]
  exact wf_preserved md cs set_idx tag hwf

/-- C2 witness: the invariant holds at a concrete construction and is
preserved by a concrete access. -/
theorem order_table_permutation_invariant_witness :
    WF (lru_replacement_policy_new 2 2)
    ∧ WF (lru_cache_access (lru_replacement_policy_new 2 2)
        { associativity := 2, cache_lines := fun n => { tag := n, status := Status.EXCLUSIVE } }
        0 1) :=
  ⟨by decide,
    order_table_permutation_invariant.2.2.1 (lru_replacement_policy_new 2 2)
      { associativity := 2, cache_lines := fun n => { tag := n, status := Status.EXCLUSIVE } }
      0 1 (by decide)⟩

/-- C1: for LRU and LRU-Prefer-Clean, when record_access resolves the tag to
local index i (first matching, non-INVALID line of the set) and i sits at
position p of the set's order table, then afterwards position 0 of that
order table holds i, the entries formerly at positions 0 through p - 1 are
shifted one slot toward the tail, and the entries beyond position p are
untouched. -/
theorem record_access_move_to_front (md : LruMetadata) (cs : CacheSystem)
    (set_idx tag i p : Nat)
    (hfind : find_tag_from cs.cache_lines (set_idx * cs.associativity) tag 0
      cs.associativity = some i)
    (hpos : find_pos_from (md.order.getD set_idx []) i 0 md.associativity = some p)
    (hrow : (md.order.getD set_idx []).length = md.associativity)
    (hset : set_idx < md.order.length) :
    (((lru_cache_access md cs set_idx tag).order.getD set_idx []).getD 0 0 = i
     ∧ (∀ j, 1 ≤ j → j ≤ p →
         ((lru_cache_access md cs set_idx tag).order.getD set_idx []).getD j 0
           = (md.order.getD set_idx []).getD (j - 1) 0)
     ∧ (∀ j, p < j →
         ((lru_cache_access md cs set_idx tag).order.getD set_idx []).getD j 0
           = (md.order.getD set_idx []).getD j 0))
    ∧ (((lru_prefer_clean_cache_access md cs set_idx tag).order.getD set_idx []).getD 0 0 = i
     ∧ (∀ j, 1 ≤ j → j ≤ p →
         ((lru_prefer_clean_cache_access md cs set_idx tag).order.getD set_idx []).getD j 0
           = (md.order.getD set_idx []).getD (j - 1) 0)
     ∧ (∀ j, p < j →
         ((lru_prefer_clean_cache_access md cs set_idx tag).order.getD set_idx []).getD j 0
           = (md.order.getD set_idx []).getD j 0)) := by
  obtain ⟨_, hp2, hgot⟩ := find_pos_from_some _ _ _ _ _ hpos
  have hplt : p < (md.order.getD set_idx []).length := by omega
  have hrow2 : (lru_cache_access md cs set_idx tag).order.getD set_idx []
      = i :: ((md.order.getD set_idx []).take p ++ (md.order.getD set_idx []).drop (p + 1)) := by
    rw [lru_cache_access_found md cs set_idx tag i p hfind hpos]
    rw [show ({ md with
        order := md.order.set set_idx
          ((shift_toward_tail (md.order.getD set_idx []) p).set 0 i) } :
        LruMetadata).order = md.order.set set_idx
          ((shift_toward_tail (md.order.getD set_idx []) p).set 0 i) from rfl,
      getD_set_self hset, moved_row_eq p _ i hplt]
  have hmain :
      (((lru_cache_access md cs set_idx tag).order.getD set_idx []).getD 0 0 = i
       ∧ (∀ j, 1 ≤ j → j ≤ p →
           ((lru_cache_access md cs set_idx tag).order.getD set_idx []).getD j 0
             = (md.order.getD set_idx []).getD (j - 1) 0)
       ∧ (∀ j, p < j →
           ((lru_cache_access md cs set_idx tag).order.getD set_idx []).getD j 0
             = (md.order.getD set_idx []).getD j 0)) := by
    rw [hrow2]
    refine ⟨rfl, ?_, ?_⟩
    · intro j hj1 hjp
      obtain ⟨j2, rfl⟩ : ∃ j2, j = j2 + 1 := ⟨j - 1, by omega⟩
      have hj2p : j2 < p := by omega
      have hlt : ((md.order.getD set_idx []).take p).length = p := by
        rw [List.length_take]
        omega
      have htk : j2 < ((md.order.getD set_idx []).take p).length := by omega
      rw [show (j2 + 1 - 1) = j2 from rfl, List.getD_cons_succ,
        List.getD_eq_getElem?_getD, List.getElem?_append_left htk,
        List.getElem?_take_of_lt hj2p, ← List.getD_eq_getElem?_getD]
    · intro j hj
      obtain ⟨j2, rfl⟩ : ∃ j2, j = j2 + 1 := ⟨j - 1, by omega⟩
      have hlt : ((md.order.getD set_idx []).take p).length = p := by
        rw [List.length_take]
        omega
      have htk : ((md.order.getD set_idx []).take p).length ≤ j2 := by omega
      rw [List.getD_cons_succ, List.getD_eq_getElem?_getD,
        List.getElem?_append_right htk, List.getElem?_drop, hlt,
        show p + 1 + (j2 - p) = j2 + 1 from by omega,
        ← List.getD_eq_getElem?_getD]
  exact ⟨hmain, by rw [prefer_clean_cache_access_eq]; exact hmain⟩

/-- C1 witness: in a concrete 3-way set with the identity order, accessing
the line at local index 1 (position 1 of the order) moves 1 to the front and
shifts the old head toward the tail. -/
theorem record_access_move_to_front_witness :
    find_tag_from (fun n => ({ tag := 10 + n, status := Status.EXCLUSIVE } : CacheLine))
        (0 * 3) 11 0 3 = some 1
    ∧ find_pos_from ((lru_replacement_policy_new 1 3).order.getD 0 []) 1 0 3 = some 1
    ∧ ((lru_cache_access (lru_replacement_policy_new 1 3)
        { associativity := 3,
          cache_lines := fun n => { tag := 10 + n, status := Status.EXCLUSIVE } }
        0 11).order.getD 0 []).getD 0 0 = 1 :=
  ⟨by decide, by decide,
    (record_access_move_to_front (lru_replacement_policy_new 1 3)
      { associativity := 3,
        cache_lines := fun n => { tag := 10 + n, status := Status.EXCLUSIVE } }
      0 11 1 1 (by decide) (by decide) (by decide) (by decide)).1.1⟩

/-- C4: Scenario A for LRU — associativity 4, initial order [0,1,2,3];
after record_access calls whose tags resolve to local indices 0, 1, 2, 3 in
sequence, the order table is [3,2,1,0] and select_eviction_candidate
returns 0, the entry at tail position associativity - 1. -/
theorem scenario_a_lru :
    scenario_a_md.order.getD 0 [] = [3, 2, 1, 0]
    ∧ (lru_eviction_index scenario_a_md scenario_cache 0).1 = 0 := by
  constructor
  · decide
  · decide

/-- C5: select_eviction_candidate is read-only for all three policies — the
policy metadata comes back unchanged from every eviction call — and
consequently for LRU two calls in a row on the same set with no intervening
record_access return the same local index. -/
theorem select_eviction_candidate_pure (md : LruMetadata) (rmd : RandMetadata)
    (cs : CacheSystem) (set_idx : Nat) (g : Rng) (fuel : Nat) :
    (lru_eviction_index md cs set_idx).2 = md
    ∧ (lru_prefer_clean_eviction_index md cs set_idx).2 = md
    ∧ (∀ r rmd2 g2, rand_eviction_index rmd cs set_idx g fuel = some (r, rmd2, g2) →
        rmd2 = rmd)
    ∧ (lru_eviction_index ((lru_eviction_index md cs set_idx).2) cs set_idx).1
        = (lru_eviction_index md cs set_idx).1 := by
  refine ⟨rfl, ?_, ?_, rfl⟩
  · unfold lru_prefer_clean_eviction_index
    cases find_clean_down (md.order.getD set_idx []) cs.cache_lines set_idx
        md.associativity md.associativity <;> rfl
  · intro r rmd2 g2 h
    unfold rand_eviction_index at h
    cases hu : randombytes_uniform rmd.associativity g fuel with
    | none =>
      rw [hu] at h
      exact absurd h (by simp)
    | some v =>
      obtain ⟨a, b⟩ := v
      rw [hu] at h
      simp only [Option.some.injEq, Prod.mk.injEq] at h
      exact h.2.1.symm

/-- C5 witness: a concrete random eviction draw that succeeds, with the
metadata returned unchanged. -/
theorem select_eviction_candidate_pure_witness :
    rand_eviction_index { num_sets := 1, associativity := 2 } scenario_cache 0 witness_rng 1
      = some (1, { num_sets := 1, associativity := 2 },
          { words := witness_rng.words, pos := 1 })
    ∧ ({ num_sets := 1, associativity := 2 } : RandMetadata)
      = { num_sets := 1, associativity := 2 } :=
  ⟨rfl,
    (select_eviction_candidate_pure scenario_b_md { num_sets := 1, associativity := 2 }
      scenario_cache 0 witness_rng 1).2.2.1 1 { num_sets := 1, associativity := 2 }
      { words := witness_rng.words, pos := 1 } rfl⟩

/-- C3: on a set whose order table is a permutation of the local indices,
LRU-Prefer-Clean eviction returns a clean (EXCLUSIVE) line whenever the set
has one — namely the clean line whose order-table position is nearest the
LRU tail — and otherwise returns exactly what plain LRU returns on the same
order table. -/
theorem prefer_clean_eviction_correct (md : LruMetadata) (cs : CacheSystem) (set_idx : Nat)
    (hperm : (md.order.getD set_idx []).Perm (List.range md.associativity)) :
    ((∃ l, l < md.associativity ∧
        (cs.cache_lines (set_idx * md.associativity + l)).status = Status.EXCLUSIVE) →
      ((cs.cache_lines (set_idx * md.associativity +
          (lru_prefer_clean_eviction_index md cs set_idx).1)).status = Status.EXCLUSIVE
        ∧ ∃ pos, pos < md.associativity
            ∧ (md.order.getD set_idx []).getD pos 0
                = (lru_prefer_clean_eviction_index md cs set_idx).1
            ∧ ∀ j, pos < j → j < md.associativity →
                (cs.cache_lines (set_idx * md.associativity +
                  (md.order.getD set_idx []).getD j 0)).status ≠ Status.EXCLUSIVE))
    ∧ ((∀ l, l < md.associativity →
          (cs.cache_lines (set_idx * md.associativity + l)).status ≠ Status.EXCLUSIVE) →
        (lru_prefer_clean_eviction_index md cs set_idx).1
          = (lru_eviction_index md cs set_idx).1) := by
  have hlen : (md.order.getD set_idx []).length = md.associativity := by
    simpa using hperm.length_eq
  cases hr : find_clean_down (md.order.getD set_idx []) cs.cache_lines set_idx
      md.associativity md.associativity with
  | some idx =>
    have hres : (lru_prefer_clean_eviction_index md cs set_idx).1 = idx := by
      unfold lru_prefer_clean_eviction_index
      rw [hr]
    obtain ⟨ii, hik, hgot, hclean, hafter⟩ := find_clean_down_some _ _ _ _ _ _ hr
    have hlt : ii < (md.order.getD set_idx []).length := by omega
    constructor
    · intro _
      rw [hres]
      exact ⟨hclean, ii, hik, hgot, fun j h1 h2 => hafter j h1 h2⟩
    · intro hnone
      exfalso
      have hmem : idx ∈ md.order.getD set_idx [] := by
        rw [← hgot, getD_eq_getElem_of_lt hlt]
        exact List.getElem_mem hlt
      have hidx : idx < md.associativity := by
        have := hperm.mem_iff.mp hmem
        simpa [List.mem_range] using this
      exact hnone idx hidx hclean
  | none =>
    have hres : (lru_prefer_clean_eviction_index md cs set_idx).1
        = (md.order.getD set_idx []).getD (md.associativity - 1) 0 := by
      unfold lru_prefer_clean_eviction_index
      rw [hr]
    have hall := find_clean_down_none _ _ _ _ _ hr
    constructor
    · rintro ⟨l, hl, hcl⟩
      exfalso
      have hmem : l ∈ md.order.getD set_idx [] :=
        hperm.mem_iff.mpr (List.mem_range.mpr hl)
      obtain ⟨ii, hii, hgot⟩ := List.mem_iff_getElem.mp hmem
      have hii2 : ii < md.associativity := by omega
      have hthis := hall ii hii2
      rw [getD_eq_getElem_of_lt hii, hgot] at hthis
      exact hthis hcl
    · intro _
      rw [hres]
      rfl

/-- C3 witness, Scenario B: order [3,2,1,0], lines 0 and 2 dirty, lines 1
and 3 clean — eviction returns local index 1, a clean line. -/
theorem prefer_clean_eviction_correct_witness :
    ((scenario_b_md.order.getD 0 []).Perm (List.range 4))
    ∧ (lru_prefer_clean_eviction_index scenario_b_md scenario_b_cache 0).1 = 1
    ∧ (scenario_b_cache.cache_lines (0 * 4 +
        (lru_prefer_clean_eviction_index scenario_b_md scenario_b_cache 0).1)).status
      = Status.EXCLUSIVE :=
  ⟨by decide, by decide,
    ((prefer_clean_eviction_correct scenario_b_md scenario_b_cache 0 (by decide)).1
      ⟨1, by decide, by decide⟩).1⟩

/-! Counting lemmas behind the unbiasedness of the rejection sampler: any
half-open interval of length ub contains exactly one number of each residue
class mod ub, so an interval of length ub * q contains exactly q of each. -/

theorem mod_window_card (a ub k : Nat) (hk : k < ub) :
    ((Finset.Ico a (a + ub)).filter (fun r => r % ub = k)).card = 1 := by
  have hub : 0 < ub := by omega
  have hoff : (k + ub - a % ub) % ub < ub := Nat.mod_lt _ hub
  have hmodlt : a % ub < ub := Nat.mod_lt _ hub
  have hmodeq : (a + (k + ub - a % ub) % ub) % ub = k := by
    have h2 : a % ub + (k + ub - a % ub) = k + ub := by omega
    calc (a + (k + ub - a % ub) % ub) % ub
        = (a % ub + ((k + ub - a % ub) % ub) % ub) % ub := by rw [Nat.add_mod]
      _ = (a % ub + (k + ub - a % ub) % ub) % ub := by rw [Nat.mod_mod]
      _ = (a % ub + (k + ub - a % ub)) % ub := by rw [Nat.add_mod_mod]
      _ = (k + ub) % ub := by rw [h2]
      _ = k % ub := by rw [Nat.add_mod_right]
      _ = k := Nat.mod_eq_of_lt hk
  rw [Finset.card_eq_one]
  refine ⟨a + (k + ub - a % ub) % ub, ?_⟩
  rw [Finset.eq_singleton_iff_unique_mem]
  constructor
  · rw [Finset.mem_filter, Finset.mem_Ico]
    exact ⟨⟨Nat.le_add_right _ _, by omega⟩, hmodeq⟩
  · intro x hx
    rw [Finset.mem_filter, Finset.mem_Ico] at hx
    obtain ⟨⟨hx1, hx2⟩, hxmod⟩ := hx
    set w := a + (k + ub - a % ub) % ub with hw
    have hwmem1 : a ≤ w := Nat.le_add_right _ _
    have hwmem2 : w < a + ub := by omega
    have hxdm : ub * (x / ub) + k = x := by
      conv_rhs => rw [← Nat.div_add_mod x ub]
      rw [hxmod]
    have hwdm : ub * (w / ub) + k = w := by
      conv_rhs => rw [← Nat.div_add_mod w ub]
      rw [hmodeq]
    have key : ∀ q1 q2 : Nat, q1 < q2 → ub * q1 + ub ≤ ub * q2 := by
      intro q1 q2 h
      have h3 : ub * (q1 + 1) ≤ ub * q2 := Nat.mul_le_mul_left ub h
      rw [Nat.mul_succ] at h3
      exact h3
    rcases Nat.lt_trichotomy (x / ub) (w / ub) with hlt | heq | hgt
    · have hkey := key _ _ hlt
      omega
    · rw [heq] at hxdm
      omega
    · have hkey := key _ _ hgt
      omega

theorem mod_run_card (ub k : Nat) (hk : k < ub) :
    ∀ q a, ((Finset.Ico a (a + ub * q)).filter (fun r => r % ub = k)).card = q := by
  intro q
  induction q with
  | zero => intro a; simp
  | succ n ih =>
    intro a
    have hub : 0 < ub := by omega
    have hmul : a + ub * (n + 1) = (a + ub) + ub * n := by
      rw [Nat.mul_succ]
      omega
    have hsplit : Finset.Ico a (a + ub * (n + 1)) =
        Finset.Ico a (a + ub) ∪ Finset.Ico (a + ub) (a + ub * (n + 1)) := by
      rw [Finset.Ico_union_Ico_eq_Ico (Nat.le_add_right a ub) (by omega)]
    have hdisj : Disjoint
        ((Finset.Ico a (a + ub)).filter (fun r => r % ub = k))
        ((Finset.Ico (a + ub) (a + ub * (n + 1))).filter (fun r => r % ub = k)) :=
      Finset.disjoint_filter_filter (Finset.Ico_disjoint_Ico_consecutive a (a + ub) _)
    rw [hsplit, Finset.filter_union, Finset.card_union_of_disjoint hdisj,
      mod_window_card a ub k hk, hmul, ih (a + ub)]
    omega

theorem accepted_words_uniform (ub k : Nat) (h2 : 2 ≤ ub) (hle : ub ≤ 2 ^ 32)
    (hk : k < ub) :
    ((Finset.range (2 ^ 32)).filter
      (fun r => (2 ^ 32 - ub) % ub ≤ r ∧ r % ub = k)).card = 2 ^ 32 / ub := by
  have hub : 0 < ub := by omega
  have hmin : (2 ^ 32 - ub) % ub = 2 ^ 32 % ub := by
    conv_rhs => rw [show (2 : Nat) ^ 32 = (2 ^ 32 - ub) + ub from by omega]
    rw [Nat.add_mod_right]
  have hdecomp : 2 ^ 32 % ub + ub * (2 ^ 32 / ub) = 2 ^ 32 := Nat.mod_add_div _ _
  have hset : (Finset.range (2 ^ 32)).filter
        (fun r => (2 ^ 32 - ub) % ub ≤ r ∧ r % ub = k)
      = (Finset.Ico (2 ^ 32 % ub) (2 ^ 32 % ub + ub * (2 ^ 32 / ub))).filter
          (fun r => r % ub = k) := by
    ext x
    simp only [Finset.mem_filter, Finset.mem_range, Finset.mem_Ico, hmin]
    constructor
    · rintro ⟨hx, hge, hmod⟩
      exact ⟨⟨hge, by omega⟩, hmod⟩
    · rintro ⟨⟨hge, hlt⟩, hmod⟩
      exact ⟨by omega, hge, hmod⟩
  rw [hset]
  exact mod_run_card ub k hk (2 ^ 32 / ub) (2 ^ 32 % ub)

/-- C8: the Random policy's eviction selection (1) ignores the set index and
the cache contents, (2) with associativity 1 always returns 0, (3) always
returns a value below the associativity, (4, 5) behaves as a rejection
sampler — an accepted 32-bit word w yields w mod associativity and a
rejected word (below min = (2^32 - ub) % ub) is skipped — and (6) the
accepted words are distributed without bias: every residue k < ub is hit by
exactly 2^32 / ub of them, independent of k. -/
theorem rand_eviction_uniform_unbiased :
    (∀ rmd cs1 cs2 set1 set2 g fuel,
        rand_eviction_index rmd cs1 set1 g fuel = rand_eviction_index rmd cs2 set2 g fuel)
    ∧ (∀ rmd cs set_idx g fuel, rmd.associativity = 1 →
        rand_eviction_index rmd cs set_idx g fuel = some (0, rmd, g))
    ∧ (∀ rmd cs set_idx g fuel r rmd2 g2,
        rand_eviction_index rmd cs set_idx g fuel = some (r, rmd2, g2) →
        0 < rmd.associativity → r < rmd.associativity)
    ∧ (∀ ub g fuel, 2 ≤ ub → ¬(g.words g.pos % 2 ^ 32 < (2 ^ 32 - ub) % ub) →
        randombytes_uniform ub g (fuel + 1)
          = some (g.words g.pos % 2 ^ 32 % ub, { words := g.words, pos := g.pos + 1 }))
    ∧ (∀ ub g fuel, 2 ≤ ub → g.words g.pos % 2 ^ 32 < (2 ^ 32 - ub) % ub →
        randombytes_uniform ub g (fuel + 1)
          = randombytes_uniform ub { words := g.words, pos := g.pos + 1 } fuel)
    ∧ (∀ ub k, 2 ≤ ub → ub ≤ 2 ^ 32 → k < ub →
        ((Finset.range (2 ^ 32)).filter
          (fun r => (2 ^ 32 - ub) % ub ≤ r ∧ r % ub = k)).card = 2 ^ 32 / ub) := by
  refine ⟨fun rmd cs1 cs2 set1 set2 g fuel => rfl, ?_, ?_, ?_, ?_,
    fun ub k h2 hle hk => accepted_words_uniform ub k h2 hle hk⟩
  · intro rmd cs set_idx g fuel h1
    unfold rand_eviction_index randombytes_uniform
    rw [h1]
    rfl
  · intro rmd cs set_idx g fuel r rmd2 g2 h hpos
    unfold rand_eviction_index at h
    cases hu : randombytes_uniform rmd.associativity g fuel with
    | none =>
      rw [hu] at h
      exact absurd h (by simp)
    | some v =>
      obtain ⟨a, b⟩ := v
      rw [hu] at h
      simp only [Option.some.injEq, Prod.mk.injEq] at h
      obtain ⟨har, _, _⟩ := h
      unfold randombytes_uniform at hu
      by_cases hlt : rmd.associativity < 2
      · rw [if_pos hlt] at hu
        simp only [Option.some.injEq, Prod.mk.injEq] at hu
        omega
      · rw [if_neg hlt] at hu
        cases hl : rejection_loop ((2 ^ 32 - rmd.associativity) % rmd.associativity)
            g fuel with
        | none =>
          rw [hl] at hu
          exact absurd hu (by simp)
        | some w =>
          obtain ⟨wr, wg⟩ := w
          rw [hl] at hu
          simp only [Option.some.injEq, Prod.mk.injEq] at hu
          have hmod : wr % rmd.associativity < rmd.associativity := Nat.mod_lt _ (by omega)
          omega
  · intro ub g fuel h2 hacc
    unfold randombytes_uniform
    rw [if_neg (by omega), rejection_loop, if_neg hacc]
  · intro ub g fuel h2 hrej
    unfold randombytes_uniform
    rw [if_neg (by omega), if_neg (by omega), rejection_loop, if_pos hrej]

/-- C8 witness: the unbiasedness count applied at upper bound 3 and residue
1, together with the concrete associativity-1 draw. -/
theorem rand_eviction_uniform_unbiased_witness :
    ((2 : Nat) ≤ 3 ∧ (3 : Nat) ≤ 2 ^ 32 ∧ (1 : Nat) < 3)
    ∧ ((Finset.range (2 ^ 32)).filter
        (fun r => (2 ^ 32 - 3) % 3 ≤ r ∧ r % 3 = 1)).card = 2 ^ 32 / 3
    ∧ rand_eviction_index { num_sets := 4, associativity := 1 } scenario_cache 2
        witness_rng 1 = some (0, { num_sets := 4, associativity := 1 }, witness_rng) :=
  ⟨⟨by decide, by decide, by decide⟩,
    rand_eviction_uniform_unbiased.2.2.2.2.2 3 1 (by decide) (by decide) (by decide),
    rand_eviction_uniform_unbiased.2.1 { num_sets := 4, associativity := 1 }
      scenario_cache 2 witness_rng 1 rfl⟩

/-- C9 counterexample: release on a null/absent instance is not safe for the
LRU variant — the cleanup body reads the instance's data pointer without a
null check of the instance itself, so the call does not return normally (in
the embedding there is no normal result at all). -/
theorem lru_release_null_instance_not_safe :
    lru_replacement_policy_cleanup none = none
    ∧ ¬∃ rp, lru_replacement_policy_cleanup none = some rp :=
  ⟨rfl, by simp [lru_replacement_policy_cleanup]⟩

/-- C9 amended: release is idempotent for every variant — the first call
frees the metadata and clears the data pointer, and a second call on the
already-released instance is a no-op thanks to the metadata null check — and
the Random variant (which alone checks the instance pointer) is additionally
safe on a null/absent instance. -/
theorem release_idempotent :
    (∀ md : LruMetadata,
        lru_replacement_policy_cleanup (some { data := some md })
          = some (some { data := none }))
    ∧ lru_replacement_policy_cleanup (some { data := none })
        = some (some { data := none })
    ∧ (∀ md : LruMetadata,
        lru_prefer_clean_replacement_policy_cleanup (some { data := some md })
          = some (some { data := none }))
    ∧ lru_prefer_clean_replacement_policy_cleanup (some { data := none })
        = some (some { data := none })
    ∧ (∀ md : RandMetadata,
        rand_replacement_policy_cleanup (some { data := some md })
          = some (some { data := none }))
    ∧ rand_replacement_policy_cleanup (some { data := none })
        = some (some { data := none })
    ∧ rand_replacement_policy_cleanup none = some none :=
  ⟨fun _ => rfl, rfl, fun _ => rfl, rfl, fun _ => rfl, rfl, rfl⟩

end ReplacementPolicies
